import Mathlib

/-!
Verification development for the ztarcc-rs script-conversion engine.

The Rust sources are shallowly embedded at the UTF-8 byte level:

* a Rust `&str` / `String` is a `Bytes` value (`List Nat` of its UTF-8
  bytes); the valid-UTF-8 type invariant of `&str` becomes an explicit
  hypothesis `w = utf8Encode cs` with every codepoint in `cs` valid;
* a `trie_rs::map::Trie<u8, String>` is a `Dict`, an association list from
  key bytes to value bytes; `common_prefix_search` walks the query from
  depth 1 upwards and yields every stored key found along the way, so it
  is embedded as `commonPrefixSearch`, which lists the stored keys that
  are non-empty prefixes of the query in increasing length order
  (`.last()` therefore selects the longest match);
* the `while offset < word.len()` scanning loop of `convert_word`
  (src/src/lib.rs) becomes the fuel-indexed `convertLoop`; the fuel
  `word.length` is shown sufficient because every iteration consumes at
  least one byte;
* `build.rs` helpers (`read_dict`, `reverse_dict`, the pass assembly and
  the key aggregation of `build_all_dicts`) become `read_dict`,
  `reverse_dict`, `buildPass` and `allConversionKeys`, with `HashMap`
  modelled as an association list whose `insert` replaces the old binding.
-/

set_option maxRecDepth 8000

namespace Ztarcc

/-- UTF-8 byte strings: the bytes of a Rust `&str`, `String` or `&[u8]`. -/
abbrev Bytes := List Nat

/-- A dictionary: association list from key bytes to value bytes, the
embedding of `trie_rs::map::Trie<u8, String>` (unique keys in the source). -/
abbrev Dict := List (Bytes × Bytes)

/-- Association-list lookup; embeds trie / `HashMap` key lookup. -/
def lookupAssoc (m : Dict) (k : Bytes) : Option Bytes :=
  (m.find? (fun e => e.1 == k)).map (fun e => e.2)

/-- A valid Unicode scalar value (the codepoint of a Rust `char`). -/
def ValidChar (c : Nat) : Prop := c < 0xD800 ∨ (0xE000 ≤ c ∧ c < 0x110000)

instance (c : Nat) : Decidable (ValidChar c) := by unfold ValidChar; infer_instance

theorem ValidChar.lt_max {c : Nat} (h : ValidChar c) : c < 0x110000 := by
  rcases h with h | h
  · omega
  · exact h.2

/-- UTF-8 encoding of one codepoint (the bytes Rust's `char` occupies,
`ch.len_utf8()` bytes long). -/
def utf8EncodeChar (c : Nat) : Bytes :=
  if c < 0x80 then [c]
  else if c < 0x800 then [0xC0 + c / 64, 0x80 + c % 64]
  else if c < 0x10000 then [0xE0 + c / 4096, 0x80 + c / 64 % 64, 0x80 + c % 64]
  else [0xF0 + c / 0x40000, 0x80 + c / 4096 % 64, 0x80 + c / 64 % 64, 0x80 + c % 64]

/-- UTF-8 encoding of a codepoint sequence: the byte representation of a
Rust string whose `chars()` are `cs`. -/
def utf8Encode (cs : List Nat) : Bytes := (cs.map utf8EncodeChar).flatten

/-- A UTF-8 continuation byte (`0x80..=0xBF`). -/
def isContByte (b : Nat) : Bool := decide (0x80 ≤ b) && decide (b < 0xC0)

/-- Continuation of a 2-byte UTF-8 sequence headed by `b0`. -/
def utf8DecodeCont1 (b0 : Nat) : Bytes → Option (Nat × Nat)
  | b1 :: _ =>
    if isContByte b1 then some ((b0 - 0xC0) * 64 + (b1 - 0x80), 2) else none
  | _ => none

/-- Continuation of a 3-byte UTF-8 sequence headed by `b0`. -/
def utf8DecodeCont2 (b0 : Nat) : Bytes → Option (Nat × Nat)
  | b1 :: b2 :: _ =>
    if isContByte b1 && isContByte b2 then
      some (((b0 - 0xE0) * 64 + (b1 - 0x80)) * 64 + (b2 - 0x80), 3)
    else none
  | _ => none

/-- Continuation of a 4-byte UTF-8 sequence headed by `b0`. -/
def utf8DecodeCont3 (b0 : Nat) : Bytes → Option (Nat × Nat)
  | b1 :: b2 :: b3 :: _ =>
    if isContByte b1 && isContByte b2 && isContByte b3 then
      some ((((b0 - 0xF0) * 64 + (b1 - 0x80)) * 64 + (b2 - 0x80)) * 64 + (b3 - 0x80), 4)
    else none
  | _ => none

/-- Decode the first codepoint of a UTF-8 byte string, returning the
codepoint and its byte length; embeds `word[offset..].chars().next()`
together with `ch.len_utf8()`.  Returns `none` on the empty string (the
only case reachable from a Rust `&str`, whose bytes are valid UTF-8). -/
def utf8DecodeFirst : Bytes → Option (Nat × Nat)
  | [] => none
  | b0 :: rest =>
    if b0 < 0x80 then some (b0, 1)
    else if b0 < 0xC0 then none
    else if b0 < 0xE0 then utf8DecodeCont1 b0 rest
    else if b0 < 0xF0 then utf8DecodeCont2 b0 rest
    else if b0 < 0xF8 then utf8DecodeCont3 b0 rest
    else none

/-- A byte string that is the UTF-8 encoding of some valid codepoints:
the type invariant of Rust `&str` / `String` made explicit. -/
def ValidUtf8 (w : Bytes) : Prop :=
  ∃ cs : List Nat, (∀ c ∈ cs, ValidChar c) ∧ w = utf8Encode cs

theorem utf8Encode_nil : utf8Encode [] = [] := rfl

theorem utf8Encode_cons (c : Nat) (cs : List Nat) :
    utf8Encode (c :: cs) = utf8EncodeChar c ++ utf8Encode cs := by
  simp [utf8Encode]

theorem utf8EncodeChar_ne_nil (c : Nat) : utf8EncodeChar c ≠ [] := by
  unfold utf8EncodeChar
  split_ifs <;> simp

theorem utf8EncodeChar_length_pos (c : Nat) : 1 ≤ (utf8EncodeChar c).length := by
  unfold utf8EncodeChar
  split_ifs <;> simp

theorem utf8DecodeFirst_len_pos {s : Bytes} {c n : Nat}
    (h : utf8DecodeFirst s = some (c, n)) : 1 ≤ n := by
  unfold utf8DecodeFirst utf8DecodeCont1 utf8DecodeCont2 utf8DecodeCont3 at h
  repeat' split at h
  all_goals simp_all
  all_goals omega

theorem isContByte_mod64 (c : Nat) : isContByte (0x80 + c % 64) = true := by
  simp only [isContByte, Bool.and_eq_true, decide_eq_true_eq]
  omega

theorem utf8DecodeFirst_encode {c : Nat} (hc : c < 0x110000) (rest : Bytes) :
    utf8DecodeFirst (utf8EncodeChar c ++ rest) =
      some (c, (utf8EncodeChar c).length) := by
  unfold utf8EncodeChar
  split_ifs with h1 h2 h3 <;>
    (simp only [utf8DecodeFirst, utf8DecodeCont1, utf8DecodeCont2, utf8DecodeCont3,
       List.cons_append, List.nil_append, List.length_cons, List.length_nil,
       isContByte_mod64, Bool.and_self, if_true]
     split_ifs <;>
       first
         | (simp only [Option.some.injEq, Prod.mk.injEq, and_true, true_and]
            first
              | done
              | omega)
         | omega)

theorem utf8EncodeChar_append_inj {c1 c2 : Nat} {t1 t2 : Bytes}
    (h : utf8EncodeChar c1 ++ t1 = utf8EncodeChar c2 ++ t2) : c1 = c2 ∧ t1 = t2 := by
  unfold utf8EncodeChar at h
  split_ifs at h <;>
    simp only [List.cons_append, List.nil_append, List.cons.injEq] at h <;>
    (obtain ⟨e1, h⟩ := h
     first
       | (exfalso; omega)
       | exact ⟨by omega, h⟩
       | (obtain ⟨e2, h⟩ := h
          first
            | exact ⟨by omega, h⟩
            | (obtain ⟨e3, h⟩ := h
               first
                 | exact ⟨by omega, h⟩
                 | (obtain ⟨e4, h⟩ := h
                    exact ⟨by omega, h⟩))))

theorem utf8Encode_cancel :
    ∀ (ks cs : List Nat) (t : Bytes), utf8Encode ks ++ t = utf8Encode cs →
      ∃ cs2, cs = ks ++ cs2 ∧ t = utf8Encode cs2 := by
  intro ks
  induction ks with
  | nil =>
    intro cs t h
    exact ⟨cs, rfl, by simpa [utf8Encode_nil] using h⟩
  | cons k ks ih =>
    intro cs t h
    match cs with
    | [] =>
      exfalso
      rw [utf8Encode_cons, utf8Encode_nil, List.append_assoc] at h
      exact utf8EncodeChar_ne_nil k (List.append_eq_nil.mp h).1
    | c :: cs' =>
      rw [utf8Encode_cons, utf8Encode_cons, List.append_assoc] at h
      obtain ⟨hkc, ht⟩ := utf8EncodeChar_append_inj h
      subst hkc
      obtain ⟨cs2, hcs, ht2⟩ := ih cs' (t) ht
      exact ⟨cs2, by simp [hcs], ht2⟩

/-- Embedding of `trie_rs` `common_prefix_search`: the search walks the
query byte by byte from depth 1, yielding each stored key found along the
way, so it lists every stored key that is a non-empty prefix of the query
in increasing length order. `.last()` on the search result therefore
selects the longest match. -/
def commonPrefixSearch (dict : Dict) (q : Bytes) : List (Bytes × Bytes) :=
  (List.range' 1 q.length).filterMap (fun i =>
    (lookupAssoc dict (q.take i)).map (fun v => (q.take i, v)))

theorem mem_commonPrefixSearch {dict : Dict} {q k : Bytes} {v : Bytes} :
    (k, v) ∈ commonPrefixSearch dict q ↔
      ∃ i, 1 ≤ i ∧ i ≤ q.length ∧ k = q.take i ∧ lookupAssoc dict k = some v := by
  unfold commonPrefixSearch
  rw [List.mem_filterMap]
  constructor
  · rintro ⟨i, hi, hf⟩
    rw [List.mem_range'_1] at hi
    rw [Option.map_eq_some'] at hf
    obtain ⟨v', hv', hkv⟩ := hf
    injection hkv with hk hv
    exact ⟨i, hi.1, by omega, hk.symm, by rw [← hk, hv', hv]⟩
  · rintro ⟨i, h1, h2, hk, hv⟩
    refine ⟨i, List.mem_range'_1.mpr ⟨h1, by omega⟩, ?_⟩
    rw [← hk, hv]
    rfl

theorem commonPrefixSearch_key_length {dict : Dict} {q k v : Bytes}
    (h : (k, v) ∈ commonPrefixSearch dict q) :
    1 ≤ k.length ∧ k.length ≤ q.length ∧ k = q.take k.length := by
  obtain ⟨i, h1, h2, hk, _⟩ := mem_commonPrefixSearch.mp h
  have hlen : k.length = i := by
    rw [hk, List.length_take]
    omega
  exact ⟨by omega, by omega, by rw [hlen, hk]⟩

theorem pairwise_filterMap_of {α β : Type} (f : α → Option β) {R : α → α → Prop}
    {S : β → β → Prop} :
    ∀ l : List α,
      (∀ a ∈ l, ∀ a' ∈ l, R a a' → ∀ b b', f a = some b → f a' = some b' → S b b') →
      l.Pairwise R → (l.filterMap f).Pairwise S := by
  intro l
  induction l with
  | nil => intro _ _; simp
  | cons a l ih =>
    intro hf hp
    rw [List.pairwise_cons] at hp
    rw [List.filterMap_cons]
    have ih' := ih (fun x hx x' hx' =>
      hf x (List.mem_cons_of_mem a hx) x' (List.mem_cons_of_mem a hx')) hp.2
    match ha : f a with
    | none => exact ih'
    | some b =>
      rw [List.pairwise_cons]
      refine ⟨?_, ih'⟩
      intro b' hb'
      obtain ⟨a', ha', hfa'⟩ := List.mem_filterMap.mp hb'
      exact hf a (List.mem_cons_self a l) a' (List.mem_cons_of_mem a ha')
        (hp.1 a' ha') b b' ha hfa'

theorem commonPrefixSearch_pairwise (dict : Dict) (q : Bytes) :
    (commonPrefixSearch dict q).Pairwise (fun e e' => e.1.length < e'.1.length) := by
  unfold commonPrefixSearch
  refine pairwise_filterMap_of _ _ ?_ (List.pairwise_lt_range' 1 q.length)
  intro i hi j hj hij b b' hb hb'
  rw [List.mem_range'_1] at hi hj
  rw [Option.map_eq_some'] at hb hb'
  obtain ⟨v1, _, hb⟩ := hb
  obtain ⟨v2, _, hb'⟩ := hb'
  rw [← hb, ← hb']
  simp only [List.length_take]
  omega

theorem getLast_pairwise_ge :
    ∀ l : List (Bytes × Bytes), l.Pairwise (fun e e' => e.1.length < e'.1.length) →
      ∀ e : Bytes × Bytes, l.getLast? = some e → ∀ a ∈ l, a.1.length ≤ e.1.length := by
  intro l
  induction l with
  | nil => intro _ e he; simp at he
  | cons x xs ih =>
    intro hp e hl a ha
    cases xs with
    | nil =>
      simp at hl ha
      rw [ha, hl]
    | cons y ys =>
      rw [List.getLast?_cons_cons] at hl
      rw [List.pairwise_cons] at hp
      rcases List.mem_cons.mp ha with rfl | ha'
      · have he : e ∈ y :: ys := List.mem_of_mem_getLast? (Option.mem_def.mpr hl)
        exact Nat.le_of_lt (hp.1 e he)
      · exact ih hp.2 e hl a ha'

theorem commonPrefixSearch_getLast_spec {dict : Dict} {q m v : Bytes}
    (h : (commonPrefixSearch dict q).getLast? = some (m, v)) :
    (m, v) ∈ commonPrefixSearch dict q ∧
      ∀ k' v', (k', v') ∈ commonPrefixSearch dict q → k'.length ≤ m.length := by
  refine ⟨List.mem_of_mem_getLast? (Option.mem_def.mpr h), ?_⟩
  intro k' v' hk'
  exact getLast_pairwise_ge _ (commonPrefixSearch_pairwise dict q) (m, v) h (k', v') hk'

theorem commonPrefixSearch_getLast_key_pos {dict : Dict} {q m v : Bytes}
    (h : (commonPrefixSearch dict q).getLast? = some (m, v)) : 1 ≤ m.length :=
  (commonPrefixSearch_key_length (commonPrefixSearch_getLast_spec h).1).1

/-- The `while offset < word.len()` scanning loop of `convert_word`
(src/src/lib.rs), one pass over one token: at the current position take
the longest `common_prefix_search` match (`.last()`) and emit its value,
otherwise copy the next codepoint through; if the remaining suffix cannot
be decoded at all (unreachable from a `&str`), copy the whole suffix.
The `fuel` argument bounds the iteration count of the source's loop;
`word.length` is always sufficient (`convertLoop_fuel`).  Returns the
`parts` vector that the source joins with `""`. -/
def convertLoop (dict : Dict) : Nat → Bytes → List Bytes
  | 0, _ => []
  | fuel + 1, suffix =>
    if suffix.isEmpty then []
    else
      match (commonPrefixSearch dict suffix).getLast? with
      | some mv => mv.2 :: convertLoop dict fuel (suffix.drop mv.1.length)
      | none =>
        match utf8DecodeFirst suffix with
        | some cl => suffix.take cl.2 :: convertLoop dict fuel (suffix.drop cl.2)
        | none => [suffix]

theorem convertLoop_nil (dict : Dict) : ∀ f, convertLoop dict f [] = []
  | 0 => rfl
  | _ + 1 => by simp [convertLoop]

theorem convertLoop_fuel (dict : Dict) :
    ∀ n s f, List.length s ≤ n → List.length s ≤ f →
      convertLoop dict f s = convertLoop dict s.length s := by
  intro n
  induction n with
  | zero =>
    intro s f h1 _
    have hs : s = [] := List.length_eq_zero.mp (Nat.le_zero.mp h1)
    subst hs
    simp [convertLoop_nil]
  | succ n ih =>
    intro s f h1 h2
    match s with
    | [] => simp [convertLoop_nil]
    | b :: t =>
      match f, h2 with
      | g + 1, h2 =>
        simp only [List.length_cons] at h1 h2 ⊢
        simp only [convertLoop, List.isEmpty_cons]
        cases hm : (commonPrefixSearch dict (b :: t)).getLast? with
        | some mv =>
          simp only
          have hk : 1 ≤ mv.1.length := commonPrefixSearch_getLast_key_pos
            (by rw [hm])
          congr 1
          have hd : ((b :: t).drop mv.1.length).length ≤ t.length := by
            simp only [List.length_drop, List.length_cons]
            omega
          rw [ih _ g (by omega) (by omega), ih _ t.length (by omega) (by omega)]
        | none =>
          simp only
          cases hd : utf8DecodeFirst (b :: t) with
          | some cl =>
            simp only
            have hk : 1 ≤ cl.2 := utf8DecodeFirst_len_pos hd
            congr 1
            have hd2 : ((b :: t).drop cl.2).length ≤ t.length := by
              simp only [List.length_drop, List.length_cons]
              omega
            rw [ih _ g (by omega) (by omega), ih _ t.length (by omega) (by omega)]
          | none => rfl

/-- One full pass of the `convert_word` loop over one token: the `parts`
vector the source accumulates and then joins with `""`. -/
def passParts (dict : Dict) (word : Bytes) : List Bytes :=
  convertLoop dict word.length word

theorem passParts_step_match {dict : Dict} {w m v : Bytes}
    (hw : w ≠ []) (hm : (commonPrefixSearch dict w).getLast? = some (m, v)) :
    passParts dict w = v :: passParts dict (w.drop m.length) := by
  obtain ⟨b, t, rfl⟩ := List.exists_cons_of_ne_nil hw
  have hk : 1 ≤ m.length := commonPrefixSearch_getLast_key_pos hm
  show convertLoop dict ((b :: t).length) (b :: t) = _
  simp only [List.length_cons]
  simp only [convertLoop, List.isEmpty_cons, Bool.false_eq_true, if_false, hm]
  congr 1
  have hd : ((b :: t).drop m.length).length ≤ t.length := by
    simp only [List.length_drop, List.length_cons]
    omega
  exact convertLoop_fuel dict t.length _ _ hd hd

theorem passParts_step_copy {dict : Dict} {w : Bytes} {c n : Nat}
    (hw : w ≠ []) (hm : (commonPrefixSearch dict w).getLast? = none)
    (hd : utf8DecodeFirst w = some (c, n)) :
    passParts dict w = w.take n :: passParts dict (w.drop n) := by
  obtain ⟨b, t, rfl⟩ := List.exists_cons_of_ne_nil hw
  have hk : 1 ≤ n := utf8DecodeFirst_len_pos hd
  show convertLoop dict ((b :: t).length) (b :: t) = _
  simp only [List.length_cons]
  simp only [convertLoop, List.isEmpty_cons, Bool.false_eq_true, if_false, hm, hd]
  congr 1
  have hd2 : ((b :: t).drop n).length ≤ t.length := by
    simp only [List.length_drop, List.length_cons]
    omega
  exact convertLoop_fuel dict t.length _ _ hd2 hd2

theorem passParts_step_rest {dict : Dict} {w : Bytes}
    (hw : w ≠ []) (hm : (commonPrefixSearch dict w).getLast? = none)
    (hd : utf8DecodeFirst w = none) :
    passParts dict w = [w] := by
  obtain ⟨b, t, rfl⟩ := List.exists_cons_of_ne_nil hw
  show convertLoop dict ((b :: t).length) (b :: t) = _
  simp only [List.length_cons]
  simp only [convertLoop, List.isEmpty_cons, Bool.false_eq_true, if_false, hm, hd]

theorem passParts_nil (dict : Dict) : passParts dict [] = [] := rfl

/-- Instrumentation of the same scanning loop: the consumed byte blocks,
one per loop iteration (the slice between the old and the new `offset`). -/
def segsLoop (dict : Dict) : Nat → Bytes → List Bytes
  | 0, _ => []
  | fuel + 1, suffix =>
    if suffix.isEmpty then []
    else
      match (commonPrefixSearch dict suffix).getLast? with
      | some mv => mv.1 :: segsLoop dict fuel (suffix.drop mv.1.length)
      | none =>
        match utf8DecodeFirst suffix with
        | some cl => suffix.take cl.2 :: segsLoop dict fuel (suffix.drop cl.2)
        | none => [suffix]

theorem segsLoop_nil (dict : Dict) : ∀ f, segsLoop dict f [] = []
  | 0 => rfl
  | _ + 1 => by simp [segsLoop]

theorem segsLoop_fuel (dict : Dict) :
    ∀ n s f, List.length s ≤ n → List.length s ≤ f →
      segsLoop dict f s = segsLoop dict s.length s := by
  intro n
  induction n with
  | zero =>
    intro s f h1 _
    have hs : s = [] := List.length_eq_zero.mp (Nat.le_zero.mp h1)
    subst hs
    simp [segsLoop_nil]
  | succ n ih =>
    intro s f h1 h2
    match s with
    | [] => simp [segsLoop_nil]
    | b :: t =>
      match f, h2 with
      | g + 1, h2 =>
        simp only [List.length_cons] at h1 h2 ⊢
        simp only [segsLoop, List.isEmpty_cons]
        cases hm : (commonPrefixSearch dict (b :: t)).getLast? with
        | some mv =>
          simp only
          have hk : 1 ≤ mv.1.length := commonPrefixSearch_getLast_key_pos (by rw [hm])
          congr 1
          have hd : ((b :: t).drop mv.1.length).length ≤ t.length := by
            simp only [List.length_drop, List.length_cons]
            omega
          rw [ih _ g (by omega) (by omega), ih _ t.length (by omega) (by omega)]
        | none =>
          simp only
          cases hd : utf8DecodeFirst (b :: t) with
          | some cl =>
            simp only
            have hk : 1 ≤ cl.2 := utf8DecodeFirst_len_pos hd
            congr 1
            have hd2 : ((b :: t).drop cl.2).length ≤ t.length := by
              simp only [List.length_drop, List.length_cons]
              omega
            rw [ih _ g (by omega) (by omega), ih _ t.length (by omega) (by omega)]
          | none => rfl

/-- The consumed byte blocks of one pass over `word`, one per iteration. -/
def passSegs (dict : Dict) (word : Bytes) : List Bytes :=
  segsLoop dict word.length word

theorem passSegs_step_match {dict : Dict} {w m v : Bytes}
    (hw : w ≠ []) (hm : (commonPrefixSearch dict w).getLast? = some (m, v)) :
    passSegs dict w = m :: passSegs dict (w.drop m.length) := by
  obtain ⟨b, t, rfl⟩ := List.exists_cons_of_ne_nil hw
  have hk : 1 ≤ m.length := commonPrefixSearch_getLast_key_pos hm
  show segsLoop dict ((b :: t).length) (b :: t) = _
  simp only [List.length_cons]
  simp only [segsLoop, List.isEmpty_cons, Bool.false_eq_true, if_false, hm]
  congr 1
  have hd : ((b :: t).drop m.length).length ≤ t.length := by
    simp only [List.length_drop, List.length_cons]
    omega
  exact segsLoop_fuel dict t.length _ _ hd hd

theorem passSegs_step_copy {dict : Dict} {w : Bytes} {c n : Nat}
    (hw : w ≠ []) (hm : (commonPrefixSearch dict w).getLast? = none)
    (hd : utf8DecodeFirst w = some (c, n)) :
    passSegs dict w = w.take n :: passSegs dict (w.drop n) := by
  obtain ⟨b, t, rfl⟩ := List.exists_cons_of_ne_nil hw
  have hk : 1 ≤ n := utf8DecodeFirst_len_pos hd
  show segsLoop dict ((b :: t).length) (b :: t) = _
  simp only [List.length_cons]
  simp only [segsLoop, List.isEmpty_cons, Bool.false_eq_true, if_false, hm, hd]
  congr 1
  have hd2 : ((b :: t).drop n).length ≤ t.length := by
    simp only [List.length_drop, List.length_cons]
    omega
  exact segsLoop_fuel dict t.length _ _ hd2 hd2

theorem passSegs_step_rest {dict : Dict} {w : Bytes}
    (hw : w ≠ []) (hm : (commonPrefixSearch dict w).getLast? = none)
    (hd : utf8DecodeFirst w = none) :
    passSegs dict w = [w] := by
  obtain ⟨b, t, rfl⟩ := List.exists_cons_of_ne_nil hw
  show segsLoop dict ((b :: t).length) (b :: t) = _
  simp only [List.length_cons]
  simp only [segsLoop, List.isEmpty_cons, Bool.false_eq_true, if_false, hm, hd]

theorem passSegs_nil (dict : Dict) : passSegs dict [] = [] := rfl

/-- Instrumentation of the same scanning loop: `true` exactly when the
inner fallback branch (no trie match and no decodable codepoint, which
copies the entire remaining suffix) is ever taken. -/
def fallbackLoop (dict : Dict) : Nat → Bytes → Bool
  | 0, _ => false
  | fuel + 1, suffix =>
    if suffix.isEmpty then false
    else
      match (commonPrefixSearch dict suffix).getLast? with
      | some mv => fallbackLoop dict fuel (suffix.drop mv.1.length)
      | none =>
        match utf8DecodeFirst suffix with
        | some cl => fallbackLoop dict fuel (suffix.drop cl.2)
        | none => true

theorem fallbackLoop_nil (dict : Dict) : ∀ f, fallbackLoop dict f [] = false
  | 0 => rfl
  | _ + 1 => by simp [fallbackLoop]

theorem fallbackLoop_fuel (dict : Dict) :
    ∀ n s f, List.length s ≤ n → List.length s ≤ f →
      fallbackLoop dict f s = fallbackLoop dict s.length s := by
  intro n
  induction n with
  | zero =>
    intro s f h1 _
    have hs : s = [] := List.length_eq_zero.mp (Nat.le_zero.mp h1)
    subst hs
    simp [fallbackLoop_nil]
  | succ n ih =>
    intro s f h1 h2
    match s with
    | [] => simp [fallbackLoop_nil]
    | b :: t =>
      match f, h2 with
      | g + 1, h2 =>
        simp only [List.length_cons] at h1 h2 ⊢
        simp only [fallbackLoop, List.isEmpty_cons]
        cases hm : (commonPrefixSearch dict (b :: t)).getLast? with
        | some mv =>
          simp only
          have hk : 1 ≤ mv.1.length := commonPrefixSearch_getLast_key_pos (by rw [hm])
          have hd : ((b :: t).drop mv.1.length).length ≤ t.length := by
            simp only [List.length_drop, List.length_cons]
            omega
          rw [ih _ g (by omega) (by omega), ih _ t.length (by omega) (by omega)]
        | none =>
          simp only
          cases hd : utf8DecodeFirst (b :: t) with
          | some cl =>
            simp only
            have hk : 1 ≤ cl.2 := utf8DecodeFirst_len_pos hd
            have hd2 : ((b :: t).drop cl.2).length ≤ t.length := by
              simp only [List.length_drop, List.length_cons]
              omega
            rw [ih _ g (by omega) (by omega), ih _ t.length (by omega) (by omega)]
          | none => rfl

/-- Whether one pass over `word` ever takes the inner fallback branch. -/
def passFallbackHit (dict : Dict) (word : Bytes) : Bool :=
  fallbackLoop dict word.length word

theorem passFallbackHit_step_match {dict : Dict} {w m v : Bytes}
    (hw : w ≠ []) (hm : (commonPrefixSearch dict w).getLast? = some (m, v)) :
    passFallbackHit dict w = passFallbackHit dict (w.drop m.length) := by
  obtain ⟨b, t, rfl⟩ := List.exists_cons_of_ne_nil hw
  have hk : 1 ≤ m.length := commonPrefixSearch_getLast_key_pos hm
  show fallbackLoop dict ((b :: t).length) (b :: t) = _
  simp only [List.length_cons]
  simp only [fallbackLoop, List.isEmpty_cons, Bool.false_eq_true, if_false, hm]
  have hd : ((b :: t).drop m.length).length ≤ t.length := by
    simp only [List.length_drop, List.length_cons]
    omega
  exact fallbackLoop_fuel dict t.length _ _ hd hd

theorem passFallbackHit_step_copy {dict : Dict} {w : Bytes} {c n : Nat}
    (hw : w ≠ []) (hm : (commonPrefixSearch dict w).getLast? = none)
    (hd : utf8DecodeFirst w = some (c, n)) :
    passFallbackHit dict w = passFallbackHit dict (w.drop n) := by
  obtain ⟨b, t, rfl⟩ := List.exists_cons_of_ne_nil hw
  have hk : 1 ≤ n := utf8DecodeFirst_len_pos hd
  show fallbackLoop dict ((b :: t).length) (b :: t) = _
  simp only [List.length_cons]
  simp only [fallbackLoop, List.isEmpty_cons, Bool.false_eq_true, if_false, hm, hd]
  have hd2 : ((b :: t).drop n).length ≤ t.length := by
    simp only [List.length_drop, List.length_cons]
    omega
  exact fallbackLoop_fuel dict t.length _ _ hd2 hd2

theorem passFallbackHit_nil (dict : Dict) : passFallbackHit dict [] = false := rfl

theorem lookupAssoc_mem {dict : Dict} {k v : Bytes}
    (h : lookupAssoc dict k = some v) : (k, v) ∈ dict := by
  unfold lookupAssoc at h
  rw [Option.map_eq_some'] at h
  obtain ⟨e, he, hv⟩ := h
  have hmem := List.mem_of_find?_eq_some he
  have hbeq := List.find?_some he
  have hk : e.1 = k := by
    simpa using hbeq
  have : e = (k, v) := by
    cases e
    simp_all
  rw [← this]
  exact hmem

theorem utf8Encode_eq_nil_iff {cs : List Nat} : utf8Encode cs = [] ↔ cs = [] := by
  cases cs with
  | nil => simp [utf8Encode_nil]
  | cons c cs' =>
    simp only [utf8Encode_cons]
    constructor
    · intro h
      exact absurd (List.append_eq_nil.mp h).1 (utf8EncodeChar_ne_nil c)
    · intro h
      exact absurd h (by simp)

theorem utf8Encode_length_pos {cs : List Nat} (h : cs ≠ []) :
    1 ≤ (utf8Encode cs).length := by
  cases cs with
  | nil => exact absurd rfl h
  | cons c cs' =>
    rw [utf8Encode_cons, List.length_append]
    have := utf8EncodeChar_length_pos c
    omega

/-- A matched key of the trie search on an encoded word is itself an
encoded word, and consuming it leaves an encoded word. -/
theorem valid_step_match {dict : Dict} (hkeys : ∀ kv ∈ dict, ValidUtf8 kv.1)
    {cs : List Nat} {m v : Bytes}
    (hm : (m, v) ∈ commonPrefixSearch dict (utf8Encode cs)) :
    ∃ ks cs2, cs = ks ++ cs2 ∧ m = utf8Encode ks ∧
      (utf8Encode cs).drop m.length = utf8Encode cs2 := by
  obtain ⟨_, _, hk⟩ := commonPrefixSearch_key_length hm
  obtain ⟨_, _, _, _, hv⟩ := mem_commonPrefixSearch.mp hm
  obtain ⟨ks, _, hks⟩ := hkeys (m, v) (lookupAssoc_mem hv)
  have hks2 : m = utf8Encode ks := hks
  have hsplit : utf8Encode ks ++ (utf8Encode cs).drop m.length = utf8Encode cs := by
    rw [← hks2]
    nth_rewrite 1 [hk]
    exact List.take_append_drop m.length (utf8Encode cs)
  obtain ⟨cs2, hcs, hdrop⟩ := utf8Encode_cancel ks cs _ hsplit
  exact ⟨ks, cs2, hcs, hks2, hdrop⟩

/-- The copy-through step on a non-empty encoded word consumes exactly
the first codepoint and leaves an encoded word. -/
theorem valid_step_copy {cs : List Nat} (hcs : ∀ c ∈ cs, ValidChar c) (hne : cs ≠ []) :
    ∃ c cs', cs = c :: cs' ∧
      utf8DecodeFirst (utf8Encode cs) = some (c, (utf8EncodeChar c).length) ∧
      (utf8Encode cs).take (utf8EncodeChar c).length = utf8EncodeChar c ∧
      (utf8Encode cs).drop (utf8EncodeChar c).length = utf8Encode cs' := by
  cases cs with
  | nil => exact absurd rfl hne
  | cons c cs' =>
    have hc : ValidChar c := hcs c (List.mem_cons_self c cs')
    refine ⟨c, cs', rfl, ?_, ?_, ?_⟩
    · rw [utf8Encode_cons]
      exact utf8DecodeFirst_encode hc.lt_max _
    · rw [utf8Encode_cons]
      exact List.take_left _ _
    · rw [utf8Encode_cons]
      exact List.drop_left _ _

theorem passSegs_flatten_bounded (dict : Dict) :
    ∀ n w, List.length w ≤ n → (passSegs dict w).flatten = w := by
  intro n
  induction n with
  | zero =>
    intro w h
    have hw : w = [] := List.length_eq_zero.mp (Nat.le_zero.mp h)
    subst hw
    simp [passSegs_nil]
  | succ n ih =>
    intro w h
    rcases eq_or_ne w [] with rfl | hw
    · simp [passSegs_nil]
    · have hwpos : 1 ≤ w.length := by
        cases w with
        | nil => exact absurd rfl hw
        | cons b t => simp
      cases hm : (commonPrefixSearch dict w).getLast? with
      | some mv =>
        obtain ⟨m, v⟩ := mv
        rw [passSegs_step_match hw hm]
        have hspec := commonPrefixSearch_getLast_spec hm
        obtain ⟨hk1, hk2, hk3⟩ := commonPrefixSearch_key_length hspec.1
        rw [List.flatten_cons]
        rw [ih (w.drop m.length) (by simp only [List.length_drop]; omega)]
        nth_rewrite 1 [hk3]
        exact List.take_append_drop m.length w
      | none =>
        cases hd : utf8DecodeFirst w with
        | some cl =>
          obtain ⟨c, nlen⟩ := cl
          have hn : 1 ≤ nlen := utf8DecodeFirst_len_pos hd
          rw [passSegs_step_copy hw hm hd]
          rw [List.flatten_cons]
          rw [ih (w.drop nlen) (by simp only [List.length_drop]; omega)]
          exact List.take_append_drop nlen w
        | none =>
          rw [passSegs_step_rest hw hm hd]
          simp

theorem passSegs_flatten (dict : Dict) (w : Bytes) :
    (passSegs dict w).flatten = w :=
  passSegs_flatten_bounded dict w.length w (Nat.le_refl _)

theorem passSegs_ne_nil_bounded (dict : Dict) :
    ∀ n w, List.length w ≤ n → ∀ seg ∈ passSegs dict w, seg ≠ [] := by
  intro n
  induction n with
  | zero =>
    intro w h
    have hw : w = [] := List.length_eq_zero.mp (Nat.le_zero.mp h)
    subst hw
    simp [passSegs_nil]
  | succ n ih =>
    intro w h seg hseg
    rcases eq_or_ne w [] with rfl | hw
    · simp [passSegs_nil] at hseg
    · have hwpos : 1 ≤ w.length := by
        cases w with
        | nil => exact absurd rfl hw
        | cons b t => simp
      cases hm : (commonPrefixSearch dict w).getLast? with
      | some mv =>
        obtain ⟨m, v⟩ := mv
        rw [passSegs_step_match hw hm] at hseg
        obtain ⟨hk1, _, _⟩ := commonPrefixSearch_key_length
          (commonPrefixSearch_getLast_spec hm).1
        rcases List.mem_cons.mp hseg with rfl | hseg'
        · intro hnil
          rw [hnil] at hk1
          simp at hk1
        · exact ih (w.drop m.length) (by simp only [List.length_drop]; omega) seg hseg'
      | none =>
        cases hd : utf8DecodeFirst w with
        | some cl =>
          obtain ⟨c, nlen⟩ := cl
          have hn : 1 ≤ nlen := utf8DecodeFirst_len_pos hd
          rw [passSegs_step_copy hw hm hd] at hseg
          rcases List.mem_cons.mp hseg with rfl | hseg'
          · intro hnil
            have : (w.take nlen).length = 0 := by rw [hnil]; rfl
            rw [List.length_take] at this
            omega
          · exact ih (w.drop nlen) (by simp only [List.length_drop]; omega) seg hseg'
        | none =>
          rw [passSegs_step_rest hw hm hd] at hseg
          rcases List.mem_cons.mp hseg with rfl | hseg'
          · exact hw
          · simp at hseg'

theorem passSegs_ne_nil (dict : Dict) (w : Bytes) :
    ∀ seg ∈ passSegs dict w, seg ≠ [] :=
  passSegs_ne_nil_bounded dict w.length w (Nat.le_refl _)

theorem passParts_length_eq_bounded (dict : Dict) :
    ∀ n w, List.length w ≤ n →
      (passParts dict w).length = (passSegs dict w).length := by
  intro n
  induction n with
  | zero =>
    intro w h
    have hw : w = [] := List.length_eq_zero.mp (Nat.le_zero.mp h)
    subst hw
    rfl
  | succ n ih =>
    intro w h
    rcases eq_or_ne w [] with rfl | hw
    · rfl
    · have hwpos : 1 ≤ w.length := by
        cases w with
        | nil => exact absurd rfl hw
        | cons b t => simp
      cases hm : (commonPrefixSearch dict w).getLast? with
      | some mv =>
        obtain ⟨m, v⟩ := mv
        rw [passParts_step_match hw hm, passSegs_step_match hw hm]
        obtain ⟨hk1, _, _⟩ := commonPrefixSearch_key_length
          (commonPrefixSearch_getLast_spec hm).1
        simp only [List.length_cons]
        rw [ih (w.drop m.length) (by simp only [List.length_drop]; omega)]
      | none =>
        cases hd : utf8DecodeFirst w with
        | some cl =>
          obtain ⟨c, nlen⟩ := cl
          have hn : 1 ≤ nlen := utf8DecodeFirst_len_pos hd
          rw [passParts_step_copy hw hm hd, passSegs_step_copy hw hm hd]
          simp only [List.length_cons]
          rw [ih (w.drop nlen) (by simp only [List.length_drop]; omega)]
        | none =>
          rw [passParts_step_rest hw hm hd, passSegs_step_rest hw hm hd]

theorem passParts_length_eq (dict : Dict) (w : Bytes) :
    (passParts dict w).length = (passSegs dict w).length :=
  passParts_length_eq_bounded dict w.length w (Nat.le_refl _)

theorem take_append_exact {α : Type} (l1 l2 : List α) (n : Nat) :
    (l1 ++ l2).take (l1.length + n) = l1 ++ l2.take n := by
  induction l1 with
  | nil => simp
  | cons a l1 ih =>
    simp only [List.cons_append, List.length_cons, List.take_succ_cons]
    rw [Nat.succ_add]
    simp only [List.take_succ_cons]
    rw [ih]

theorem utf8Encode_append (cs1 cs2 : List Nat) :
    utf8Encode (cs1 ++ cs2) = utf8Encode cs1 ++ utf8Encode cs2 := by
  unfold utf8Encode
  rw [List.map_append, List.flatten_append]

theorem pass_valid_main (dict : Dict) (hkeys : ∀ kv ∈ dict, ValidUtf8 kv.1) :
    ∀ n cs, (∀ c ∈ cs, ValidChar c) → List.length (utf8Encode cs) ≤ n →
      (∀ seg ∈ passSegs dict (utf8Encode cs),
          (∃ v, lookupAssoc dict seg = some v) ∨ ∃ c, ValidChar c ∧ seg = utf8EncodeChar c)
      ∧ passFallbackHit dict (utf8Encode cs) = false
      ∧ ∀ i : Nat, ∃ j : Nat,
          ((passSegs dict (utf8Encode cs)).take i).flatten = utf8Encode (cs.take j) := by
  intro n
  induction n with
  | zero =>
    intro cs hcs h
    have hw : utf8Encode cs = [] := List.length_eq_zero.mp (Nat.le_zero.mp h)
    rw [hw]
    refine ⟨by simp [passSegs_nil], by simp [passFallbackHit_nil], ?_⟩
    intro i
    refine ⟨0, ?_⟩
    simp [passSegs_nil, utf8Encode_nil]
  | succ n ih =>
    intro cs hcs h
    rcases eq_or_ne (utf8Encode cs) [] with hw | hw
    · rw [hw]
      refine ⟨by simp [passSegs_nil], by simp [passFallbackHit_nil], ?_⟩
      intro i
      refine ⟨0, ?_⟩
      simp [passSegs_nil, utf8Encode_nil]
    · have hwpos : 1 ≤ (utf8Encode cs).length := List.length_pos.mpr hw
      cases hm : (commonPrefixSearch dict (utf8Encode cs)).getLast? with
      | some mv =>
        obtain ⟨m, v⟩ := mv
        have hspec := commonPrefixSearch_getLast_spec hm
        obtain ⟨hk1, hk2, hk3⟩ := commonPrefixSearch_key_length hspec.1
        obtain ⟨ks, cs2, hcs_split, hmks, hdrop⟩ := valid_step_match hkeys hspec.1
        obtain ⟨_, _, _, _, hv⟩ := mem_commonPrefixSearch.mp hspec.1
        have hcs2 : ∀ c ∈ cs2, ValidChar c := by
          intro c hc
          exact hcs c (by rw [hcs_split]; exact List.mem_append_right ks hc)
        have hlen2 : (utf8Encode cs2).length ≤ n := by
          have := List.length_drop m.length (utf8Encode cs)
          rw [hdrop] at this
          omega
        obtain ⟨ihc, ihf, ihb⟩ := ih cs2 hcs2 hlen2
        refine ⟨?_, ?_, ?_⟩
        · intro seg hseg
          rw [passSegs_step_match hw hm, hdrop] at hseg
          rcases List.mem_cons.mp hseg with rfl | hseg'
          · exact Or.inl ⟨v, hv⟩
          · exact ihc seg hseg'
        · rw [passFallbackHit_step_match hw hm, hdrop]
          exact ihf
        · intro i
          rw [passSegs_step_match hw hm, hdrop]
          cases i with
          | zero => exact ⟨0, by simp [utf8Encode_nil]⟩
          | succ i' =>
            obtain ⟨j', hj'⟩ := ihb i'
            refine ⟨ks.length + j', ?_⟩
            rw [List.take_succ_cons, List.flatten_cons, hj', hcs_split,
              take_append_exact, utf8Encode_append, hmks]
      | none =>
        have hcsne : cs ≠ [] := by
          intro hnil
          rw [hnil, utf8Encode_nil] at hw
          exact hw rfl
        obtain ⟨c, cs', hsplit, hd, htake, hdrop⟩ := valid_step_copy hcs hcsne
        have hcs' : ∀ x ∈ cs', ValidChar x := by
          intro x hx
          exact hcs x (by rw [hsplit]; exact List.mem_cons_of_mem c hx)
        have hlen2 : (utf8Encode cs').length ≤ n := by
          have h1 := List.length_drop (utf8EncodeChar c).length (utf8Encode cs)
          rw [hdrop] at h1
          have := utf8EncodeChar_length_pos c
          omega
        obtain ⟨ihc, ihf, ihb⟩ := ih cs' hcs' hlen2
        refine ⟨?_, ?_, ?_⟩
        · intro seg hseg
          rw [passSegs_step_copy hw hm hd, htake, hdrop] at hseg
          rcases List.mem_cons.mp hseg with rfl | hseg'
          · exact Or.inr ⟨c, hcs c (by rw [hsplit]; exact List.mem_cons_self c cs'), rfl⟩
          · exact ihc seg hseg'
        · rw [passFallbackHit_step_copy hw hm hd, hdrop]
          exact ihf
        · intro i
          rw [passSegs_step_copy hw hm hd, htake, hdrop]
          cases i with
          | zero => exact ⟨0, by simp [utf8Encode_nil]⟩
          | succ i' =>
            obtain ⟨j', hj'⟩ := ihb i'
            refine ⟨1 + j', ?_⟩
            rw [List.take_succ_cons, List.flatten_cons, hj', hsplit]
            have : (c :: cs').take (1 + j') = c :: cs'.take j' := by
              rw [Nat.add_comm]
              rfl
            rw [this, utf8Encode_cons]

/-- The longest-prefix (maximal-munch) rewrite relation, written from the
specification's words rather than from the code: at each position, if some
stored key is a prefix of the remaining suffix, the single longest one is
selected, its mapped value is emitted and its byte length consumed;
otherwise the next codepoint is copied through unchanged.
`MaximalMunch dict w parts` states that `parts` is such a decomposition
of `w`. -/
inductive MaximalMunch (dict : Dict) : Bytes → List Bytes → Prop where
  | nil : MaximalMunch dict [] []
  | keyMatch (k v rest : Bytes) (parts : List Bytes) :
      lookupAssoc dict k = some v →
      (∀ k' v', lookupAssoc dict k' = some v' → (∃ t, k' ++ t = k ++ rest) →
        k'.length ≤ k.length) →
      MaximalMunch dict rest parts →
      MaximalMunch dict (k ++ rest) (v :: parts)
  | copyChar (c : Nat) (rest : Bytes) (parts : List Bytes) :
      (∀ k' v', lookupAssoc dict k' = some v' →
        ¬ ∃ t, k' ++ t = utf8EncodeChar c ++ rest) →
      MaximalMunch dict rest parts →
      MaximalMunch dict (utf8EncodeChar c ++ rest) (utf8EncodeChar c :: parts)

theorem commonPrefixSearch_of_lookup {dict : Dict} {q k v : Bytes}
    (hk : k ≠ []) (hlk : lookupAssoc dict k = some v) (hpre : ∃ t, k ++ t = q) :
    (k, v) ∈ commonPrefixSearch dict q := by
  obtain ⟨t, ht⟩ := hpre
  refine mem_commonPrefixSearch.mpr ⟨k.length, ?_, ?_, ?_, hlk⟩
  · have : 0 < k.length := List.length_pos.mpr hk
    omega
  · rw [← ht, List.length_append]
    omega
  · rw [← ht, List.take_left]

theorem maximalMunch_passParts_bounded (dict : Dict)
    (hkeys : ∀ kv ∈ dict, ValidUtf8 kv.1) (hne : ∀ kv ∈ dict, kv.1 ≠ []) :
    ∀ n cs, (∀ c ∈ cs, ValidChar c) → List.length (utf8Encode cs) ≤ n →
      MaximalMunch dict (utf8Encode cs) (passParts dict (utf8Encode cs)) := by
  intro n
  induction n with
  | zero =>
    intro cs hcs h
    have hw : utf8Encode cs = [] := List.length_eq_zero.mp (Nat.le_zero.mp h)
    rw [hw, passParts_nil]
    exact MaximalMunch.nil
  | succ n ih =>
    intro cs hcs h
    rcases eq_or_ne (utf8Encode cs) [] with hw | hw
    · rw [hw, passParts_nil]
      exact MaximalMunch.nil
    · have hwpos : 1 ≤ (utf8Encode cs).length := List.length_pos.mpr hw
      cases hm : (commonPrefixSearch dict (utf8Encode cs)).getLast? with
      | some mv =>
        obtain ⟨m, v⟩ := mv
        have hspec := commonPrefixSearch_getLast_spec hm
        obtain ⟨hk1, hk2, hk3⟩ := commonPrefixSearch_key_length hspec.1
        obtain ⟨ks, cs2, hcs_split, hmks, hdrop⟩ := valid_step_match hkeys hspec.1
        obtain ⟨_, _, _, _, hv⟩ := mem_commonPrefixSearch.mp hspec.1
        have hcs2 : ∀ c ∈ cs2, ValidChar c := by
          intro c hc
          exact hcs c (by rw [hcs_split]; exact List.mem_append_right ks hc)
        have hlen2 : (utf8Encode cs2).length ≤ n := by
          have := List.length_drop m.length (utf8Encode cs)
          rw [hdrop] at this
          omega
        have hsplitw : utf8Encode cs = m ++ utf8Encode cs2 := by
          rw [← hdrop]
          nth_rewrite 1 [hk3]
          exact (List.take_append_drop m.length (utf8Encode cs)).symm
        rw [passParts_step_match hw hm, hdrop]
        rw [hsplitw]
        refine MaximalMunch.keyMatch m v (utf8Encode cs2) _ hv ?_ (ih cs2 hcs2 hlen2)
        intro k' v' hlk' hpre
        rcases eq_or_ne k' [] with rfl | hk'ne
        · simp
        · have hmem : (k', v') ∈ commonPrefixSearch dict (utf8Encode cs) := by
            refine commonPrefixSearch_of_lookup hk'ne hlk' ?_
            rw [hsplitw]
            exact hpre
          exact hspec.2 k' v' hmem
      | none =>
        have hcsne : cs ≠ [] := by
          intro hnil
          rw [hnil, utf8Encode_nil] at hw
          exact hw rfl
        obtain ⟨c, cs', hsplit, hd, htake, hdrop⟩ := valid_step_copy hcs hcsne
        have hcs' : ∀ x ∈ cs', ValidChar x := by
          intro x hx
          exact hcs x (by rw [hsplit]; exact List.mem_cons_of_mem c hx)
        have hlen2 : (utf8Encode cs').length ≤ n := by
          have h1 := List.length_drop (utf8EncodeChar c).length (utf8Encode cs)
          rw [hdrop] at h1
          have := utf8EncodeChar_length_pos c
          omega
        rw [passParts_step_copy hw hm hd, htake, hdrop]
        have hsplitw : utf8Encode cs = utf8EncodeChar c ++ utf8Encode cs' := by
          rw [hsplit, utf8Encode_cons]
        rw [hsplitw]
        refine MaximalMunch.copyChar c (utf8Encode cs') _ ?_ (ih cs' hcs' hlen2)
        intro k' v' hlk' hpre
        have hk'ne : k' ≠ [] := hne (k', v') (lookupAssoc_mem hlk')
        have hmem : (k', v') ∈ commonPrefixSearch dict (utf8Encode cs) := by
          refine commonPrefixSearch_of_lookup hk'ne hlk' ?_
          rw [hsplitw]
          exact hpre
        have : commonPrefixSearch dict (utf8Encode cs) ≠ [] := by
          intro hnil
          rw [hnil] at hmem
          simp at hmem
        rw [← List.getLast?_isSome] at this
        rw [hm] at this
        simp at this

/-- The four script variants (`Script` of src/src/lib.rs). -/
inductive Script where
  | ST
  | CN
  | TW
  | HK
deriving DecidableEq

/-- The eight dictionary identifiers (`DictionaryKeys`, generated by
build.rs `write_source` into `dicts.rs`, one per output dictionary). -/
inductive DictionaryKeys where
  | FromStandard
  | FromChina
  | FromTaiwan
  | FromHongKong
  | ToStandard
  | ToChina
  | ToTaiwan
  | ToHongKong
deriving DecidableEq

/-- `CONFIGS_TO_STANDARD` of src/src/lib.rs: the variant-to-standard pass
of each script. -/
def CONFIGS_TO_STANDARD : Script → DictionaryKeys
  | .ST => .FromStandard
  | .CN => .FromChina
  | .TW => .FromTaiwan
  | .HK => .FromHongKong

/-- `CONFIGS_FROM_STANDARD` of src/src/lib.rs: the standard-to-variant
pass of each script. -/
def CONFIGS_FROM_STANDARD : Script → DictionaryKeys
  | .ST => .ToStandard
  | .CN => .ToChina
  | .TW => .ToTaiwan
  | .HK => .ToHongKong

/-- `convert_word` of src/src/lib.rs: fold the per-dictionary scanning
pass over the given dictionary keys, each pass joining its `parts` with
`""`.  The lazily loaded `DICTIONARIES` registry is the parameter `D`.
The body constructs no error value: its only exit is `Ok(word)`. -/
def convert_word (D : DictionaryKeys → Dict) (keys : List DictionaryKeys)
    (input : Bytes) : Except String Bytes :=
  .ok (keys.foldl (fun word key => (passParts (D key) word).flatten) input)

/-- `convert` of src/src/lib.rs: segment the input with the
vocabulary-augmented jieba tokenizer (the parameter `cut`, an external
collaborator), then rewrite every token with the two passes selected by
the script pair, keeping the `Ok` results (`filter_map(...ok())`). -/
def convert (D : DictionaryKeys → Dict) (cut : Bytes → List Bytes)
    (src dst : Script) (input : Bytes) : Except String (List Bytes) :=
  .ok ((cut input).filterMap (fun word =>
    (convert_word D [CONFIGS_TO_STANDARD src, CONFIGS_FROM_STANDARD dst] word).toOption))

/-- Split a line at the first occurrence of `sep`: the
`line.split_once('\t')` of build.rs `read_dict`. -/
def splitOnceByte (sep : Nat) : Bytes → Option (Bytes × Bytes)
  | [] => none
  | b :: rest =>
    if b = sep then some ([], rest)
    else
      match splitOnceByte sep rest with
      | some pr => some (b :: pr.1, pr.2)
      | none => none

/-- Rust `u8::is_ascii_whitespace` (space, tab, newline, form feed,
carriage return). -/
def isAsciiWs (b : Nat) : Bool :=
  b == 32 || b == 9 || b == 10 || b == 12 || b == 13

/-- `rest.split_ascii_whitespace().next()` of build.rs `read_dict`: the
first whitespace-delimited token, if any. -/
def firstAsciiToken (s : Bytes) : Option Bytes :=
  if (s.dropWhile isAsciiWs).isEmpty then none
  else some ((s.dropWhile isAsciiWs).takeWhile (fun b => ! isAsciiWs b))

/-- `HashMap::insert`: replace any existing binding of `k`, keeping keys
unique. -/
def insertAssoc (m : Dict) (k v : Bytes) : Dict :=
  m.filter (fun e => ! (e.1 == k)) ++ [(k, v)]

/-- The `if let Some(first_token) = rest.split_ascii_whitespace().next()`
body of build.rs `read_dict`: insert the binding when the part after the
tab has a first token, otherwise keep the map unchanged. -/
def read_dict_line (acc : Dict) (kr : Bytes × Bytes) : Dict :=
  match firstAsciiToken kr.2 with
  | some tok => insertAssoc acc kr.1 tok
  | none => acc

/-- The line-processing fold of build.rs `read_dict`: a line with no tab
aborts with an error; otherwise the text before the first tab is bound to
the first whitespace-delimited token after it (if there is one), later
lines overwriting earlier bindings of the same key. -/
def read_dict_go (acc : Dict) : List Bytes → Except String Dict
  | [] => .ok acc
  | line :: rest =>
    match splitOnceByte 9 line with
    | none => .error "could not split line"
    | some kr => read_dict_go (read_dict_line acc kr) rest

/-- build.rs `read_dict`, the dictionary file given as its lines. -/
def read_dict (lines : List Bytes) : Except String Dict :=
  read_dict_go [] lines

/-- build.rs `reverse_dict`: `HashMap::from_iter` over the swapped pairs,
i.e. successive inserts of value → key. -/
def reverse_dict (in_dict : Dict) : Dict :=
  in_dict.foldl (fun m kv => insertAssoc m kv.2 kv.1) []

/-- The `dict_definitions` table of build.rs `build_all_dicts`: which
(possibly reversed, `!`-marked) mapping tables compose each output
dictionary. -/
def dict_definitions : List (DictionaryKeys × List String) :=
  [(.FromStandard, []),
   (.FromChina, ["STCharacters", "STPhrases"]),
   (.FromTaiwan, ["!TWVariants", "TWVariantsRevPhrases", "!TWPhrasesIT",
     "!TWPhrasesName", "!TWPhrasesOther"]),
   (.FromHongKong, ["!HKVariants", "HKVariantsRevPhrases"]),
   (.ToStandard, []),
   (.ToChina, ["TSCharacters", "TSPhrases"]),
   (.ToTaiwan, ["TWVariants", "TWPhrasesIT", "TWPhrasesName", "TWPhrasesOther"]),
   (.ToHongKong, ["HKVariants"])]

/-- The constituent-table list of one output dictionary. -/
def dictDefTables (k : DictionaryKeys) : List String :=
  ((dict_definitions.find? (fun e => decide (e.1 = k))).map (fun e => e.2)).getD []

/-- Pass assembly of build.rs `build_all_dicts`: push every entry of every
constituent table, in declared order, into one fresh trie; a later push
of an already present key overwrites it.  `dicts` is the name-resolved
table assignment, `!`-names already bound to reversed tables. -/
def buildPass (dicts : String → Dict) (in_names : List String) : Dict :=
  in_names.foldl
    (fun acc n => (dicts n).foldl (fun a kv => insertAssoc a kv.1 kv.2) acc) []

/-- The ConversionKeySet aggregation of build.rs `build_all_dicts`: while
assembling the passes, every key with `k.len() > 3` (UTF-8 byte length)
of every constituent table is accumulated into `all_keys`. -/
def allConversionKeys (dicts : String → Dict)
    (defs : List (DictionaryKeys × List String)) : List Bytes :=
  defs.foldl (fun acc d =>
    d.2.foldl (fun a n =>
      a ++ ((dicts n).map (fun kv => kv.1)).filter (fun k => decide (3 < k.length))) acc) []

theorem convert_eq_map_helper (D : DictionaryKeys → Dict) (cut : Bytes → List Bytes)
    (src dst : Script) (input : Bytes) :
    convert D cut src dst input = .ok ((cut input).map (fun w =>
      (passParts (D (CONFIGS_FROM_STANDARD dst))
        ((passParts (D (CONFIGS_TO_STANDARD src)) w).flatten)).flatten)) := by
  unfold convert
  congr 1
  induction cut input with
  | nil => rfl
  | cons w ws ih =>
    rw [List.filterMap_cons, List.map_cons]
    rw [← ih]
    rfl

theorem commonPrefixSearch_nil_dict (q : Bytes) : commonPrefixSearch [] q = [] := by
  unfold commonPrefixSearch lookupAssoc
  simp

theorem passParts_nil_dict_bounded :
    ∀ n w, List.length w ≤ n → passParts ([] : Dict) w = passSegs [] w := by
  intro n
  induction n with
  | zero =>
    intro w h
    have hw : w = [] := List.length_eq_zero.mp (Nat.le_zero.mp h)
    subst hw
    rfl
  | succ n ih =>
    intro w h
    rcases eq_or_ne w [] with rfl | hw
    · rfl
    · have hwpos : 1 ≤ w.length := List.length_pos.mpr hw
      have hm : (commonPrefixSearch ([] : Dict) w).getLast? = none := by
        rw [commonPrefixSearch_nil_dict]
        rfl
      cases hd : utf8DecodeFirst w with
      | some cl =>
        obtain ⟨c, nlen⟩ := cl
        have hn : 1 ≤ nlen := utf8DecodeFirst_len_pos hd
        rw [passParts_step_copy hw hm hd, passSegs_step_copy hw hm hd]
        congr 1
        exact ih (w.drop nlen) (by simp only [List.length_drop]; omega)
      | none =>
        rw [passParts_step_rest hw hm hd, passSegs_step_rest hw hm hd]

/-- With an empty dictionary the pass is the identity: every step is a
copy-through, so joining the parts returns the word unchanged. -/
theorem passParts_nil_dict_flatten (w : Bytes) :
    (passParts ([] : Dict) w).flatten = w := by
  rw [passParts_nil_dict_bounded w.length w (Nat.le_refl _)]
  exact passSegs_flatten [] w

theorem splitOnceByte_eq_none_iff {sep : Nat} :
    ∀ {l : Bytes}, splitOnceByte sep l = none ↔ ∀ b ∈ l, b ≠ sep := by
  intro l
  induction l with
  | nil => simp [splitOnceByte]
  | cons b rest ih =>
    unfold splitOnceByte
    rcases eq_or_ne b sep with rfl | hb
    · simp
    · simp only [if_neg hb]
      cases hs : splitOnceByte sep rest with
      | some pr =>
        simp only
        constructor
        · intro hc
          exact absurd hc (by simp)
        · intro hall
          rw [ih.mpr (fun x hx => hall x (List.mem_cons_of_mem b hx))] at hs
          exact absurd hs (by simp)
      | none =>
        simp only
        constructor
        · intro _
          intro x hx
          rcases List.mem_cons.mp hx with rfl | hx'
          · exact hb
          · exact (ih.mp hs) x hx'
        · intro _
          trivial

theorem splitOnceByte_first {sep : Nat} :
    ∀ {pre : Bytes}, (∀ b ∈ pre, b ≠ sep) → ∀ post : Bytes,
      splitOnceByte sep (pre ++ sep :: post) = some (pre, post) := by
  intro pre
  induction pre with
  | nil =>
    intro _ post
    simp [splitOnceByte]
  | cons b rest ih =>
    intro hpre post
    have hb : b ≠ sep := hpre b (List.mem_cons_self b rest)
    rw [List.cons_append]
    unfold splitOnceByte
    rw [if_neg hb, ih (fun x hx => hpre x (List.mem_cons_of_mem b hx)) post]

/-- The entry one line contributes, when it parses and has a value token. -/
def parseLine (line : Bytes) : Option (Bytes × Bytes) :=
  (splitOnceByte 9 line).bind (fun kr =>
    (firstAsciiToken kr.2).map (fun t => (kr.1, t)))

theorem read_dict_go_cons_none {acc : Dict} {line : Bytes} {rest : List Bytes}
    (hs : splitOnceByte 9 line = none) :
    read_dict_go acc (line :: rest) = .error "could not split line" := by
  unfold read_dict_go
  rw [hs]

theorem read_dict_go_cons_some {acc : Dict} {line : Bytes} {rest : List Bytes}
    {kr : Bytes × Bytes} (hs : splitOnceByte 9 line = some kr) :
    read_dict_go acc (line :: rest) = read_dict_go (read_dict_line acc kr) rest := by
  conv_lhs => unfold read_dict_go
  rw [hs]

theorem read_dict_go_error {lines : List Bytes} :
    ∀ acc : Dict, (∃ l ∈ lines, ∀ b ∈ l, b ≠ 9) →
      read_dict_go acc lines = .error "could not split line" := by
  induction lines with
  | nil =>
    intro acc h
    obtain ⟨l, hl, _⟩ := h
    simp at hl
  | cons line rest ih =>
    intro acc h
    cases hs : splitOnceByte 9 line with
    | none => exact read_dict_go_cons_none hs
    | some kr =>
      have hline : ¬ ∀ b ∈ line, b ≠ 9 := by
        intro hno
        rw [splitOnceByte_eq_none_iff.mpr hno] at hs
        exact absurd hs (by simp)
      obtain ⟨l, hl, hlno⟩ := h
      rcases List.mem_cons.mp hl with rfl | hl'
      · exact absurd hlno hline
      · rw [read_dict_go_cons_some hs]
        exact ih _ ⟨l, hl', hlno⟩

theorem read_dict_go_ok {lines : List Bytes} :
    ∀ acc : Dict, (∀ l ∈ lines, ∃ b ∈ l, b = 9) →
      read_dict_go acc lines =
        .ok ((lines.filterMap parseLine).foldl
          (fun m e => insertAssoc m e.1 e.2) acc) := by
  induction lines with
  | nil =>
    intro acc _
    rfl
  | cons line rest ih =>
    intro acc h
    have hline := h line (List.mem_cons_self line rest)
    have hrest : ∀ l ∈ rest, ∃ b ∈ l, b = 9 :=
      fun l hl => h l (List.mem_cons_of_mem line hl)
    cases hs : splitOnceByte 9 line with
    | none =>
      exfalso
      obtain ⟨b, hb, rfl⟩ := hline
      exact (splitOnceByte_eq_none_iff.mp hs) 9 hb rfl
    | some kr =>
      rw [read_dict_go_cons_some hs, ih _ hrest]
      congr 1
      rw [List.filterMap_cons]
      cases ht : firstAsciiToken kr.2 with
      | some tok =>
        have hp : parseLine line = some (kr.1, tok) := by
          unfold parseLine
          rw [hs]
          show (firstAsciiToken kr.2).map (fun t => (kr.1, t)) = some (kr.1, tok)
          rw [ht]
          rfl
        rw [hp]
        simp only
        unfold read_dict_line
        rw [ht]
        rfl
      | none =>
        have hp : parseLine line = none := by
          unfold parseLine
          rw [hs]
          show (firstAsciiToken kr.2).map (fun t => (kr.1, t)) = none
          rw [ht]
          rfl
        rw [hp]
        simp only
        unfold read_dict_line
        rw [ht]

theorem lookupAssoc_nil (k : Bytes) : lookupAssoc [] k = none := rfl

theorem lookupAssoc_cons (e : Bytes × Bytes) (m : Dict) (k : Bytes) :
    lookupAssoc (e :: m) k = if e.1 = k then some e.2 else lookupAssoc m k := by
  unfold lookupAssoc
  rw [List.find?_cons]
  rcases eq_or_ne e.1 k with he | he
  · rw [if_pos he]
    have : (e.1 == k) = true := by
      rw [he]
      simp
    rw [this]
    rfl
  · rw [if_neg he]
    have : (e.1 == k) = false := by
      simpa using he
    rw [this]

theorem lookupAssoc_insertAssoc (m : Dict) (k v k' : Bytes) :
    lookupAssoc (insertAssoc m k v) k' =
      if k' = k then some v else lookupAssoc m k' := by
  unfold insertAssoc
  induction m with
  | nil =>
    simp only [List.filter_nil, List.nil_append]
    rw [lookupAssoc_cons, lookupAssoc_nil]
    rcases eq_or_ne k' k with rfl | hne
    · simp
    · rw [if_neg (fun h => hne h.symm), if_neg hne]
  | cons e m ih =>
    rw [List.filter_cons]
    rcases eq_or_ne e.1 k with he | he
    · have : (! (e.1 == k)) = false := by
        rw [he]
        simp
      rw [this]
      simp only [Bool.false_eq_true, if_false]
      rw [ih]
      rcases eq_or_ne k' k with rfl | hne
      · simp
      · rw [if_neg hne, if_neg hne, lookupAssoc_cons]
        rw [if_neg (by rw [he]; exact fun h => hne h.symm)]
    · have : (! (e.1 == k)) = true := by
        simpa using he
      rw [this]
      simp only [if_true]
      rw [List.cons_append, lookupAssoc_cons, lookupAssoc_cons, ih]
      rcases eq_or_ne e.1 k' with he' | he'
      · rw [if_pos he', if_pos he']
        have : k' ≠ k := by
          rw [← he']
          exact fun h => he h
        rw [if_neg this]
      · rw [if_neg he', if_neg he']

theorem lookupAssoc_foldl_insert :
    ∀ (entries : List (Bytes × Bytes)) (acc : Dict) (k : Bytes),
      lookupAssoc (entries.foldl (fun m e => insertAssoc m e.1 e.2) acc) k =
        match (entries.filter (fun e => decide (e.1 = k))).getLast? with
        | some e => some e.2
        | none => lookupAssoc acc k := by
  intro entries
  induction entries with
  | nil =>
    intro acc k
    rfl
  | cons e rest ih =>
    intro acc k
    rw [List.foldl_cons, ih, List.filter_cons]
    rcases eq_or_ne e.1 k with he | he
    · rw [if_pos (by rw [he]; simp)]
      cases hfr : (rest.filter (fun x => decide (x.1 = k))).getLast? with
      | some e' =>
        have hne : rest.filter (fun x => decide (x.1 = k)) ≠ [] := by
          intro hnil
          rw [hnil] at hfr
          exact absurd hfr (by simp)
        obtain ⟨y, ys, hy⟩ := List.exists_cons_of_ne_nil hne
        rw [hy]
        rw [hy] at hfr
        rw [List.getLast?_cons_cons]
        rw [hfr]
      | none =>
        have hnil : rest.filter (fun x => decide (x.1 = k)) = [] := by
          cases hq : rest.filter (fun x => decide (x.1 = k)) with
          | nil => rfl
          | cons y ys =>
            exfalso
            rw [hq] at hfr
            rcases List.getLast?_eq_none_iff.mp hfr with h
            exact absurd h (by simp)
        rw [hnil]
        simp only [List.getLast?_singleton]
        rw [lookupAssoc_insertAssoc]
        rw [if_pos (by rw [he])]
    · rw [if_neg (by simpa using he)]
      cases hfr : (rest.filter (fun x => decide (x.1 = k))).getLast? with
      | some e' => rfl
      | none =>
        simp only
        rw [lookupAssoc_insertAssoc]
        rw [if_neg (fun h => he h.symm)]

theorem dropWhile_append_all {p : Nat → Bool} :
    ∀ {l1 : Bytes}, (∀ b ∈ l1, p b = true) → ∀ l2 : Bytes,
      (l1 ++ l2).dropWhile p = l2.dropWhile p := by
  intro l1
  induction l1 with
  | nil =>
    intro _ l2
    rw [List.nil_append]
  | cons b l1 ih =>
    intro h l2
    rw [List.cons_append, List.dropWhile_cons_of_pos (h b (List.mem_cons_self b l1))]
    exact ih (fun x hx => h x (List.mem_cons_of_mem b hx)) l2

theorem takeWhile_append_all {q : Nat → Bool} :
    ∀ {l1 : Bytes}, (∀ b ∈ l1, q b = true) → ∀ l2 : Bytes,
      (l1 ++ l2).takeWhile q = l1 ++ l2.takeWhile q := by
  intro l1
  induction l1 with
  | nil =>
    intro _ l2
    rw [List.nil_append, List.nil_append]
  | cons b l1 ih =>
    intro h l2
    rw [List.cons_append, List.takeWhile_cons_of_pos (h b (List.mem_cons_self b l1)),
      List.cons_append, ih (fun x hx => h x (List.mem_cons_of_mem b hx)) l2]

theorem firstAsciiToken_spec (ws tok rest : Bytes)
    (hws : ∀ b ∈ ws, isAsciiWs b = true)
    (htok : tok ≠ []) (htokns : ∀ b ∈ tok, isAsciiWs b = false)
    (hrest : rest = [] ∨ ∃ b rest2, rest = b :: rest2 ∧ isAsciiWs b = true) :
    firstAsciiToken (ws ++ tok ++ rest) = some tok := by
  obtain ⟨b0, tok', rfl⟩ := List.exists_cons_of_ne_nil htok
  have hb0 : isAsciiWs b0 = false := htokns b0 (List.mem_cons_self b0 tok')
  have hdrop : (ws ++ (b0 :: tok') ++ rest).dropWhile isAsciiWs = (b0 :: tok') ++ rest := by
    rw [List.append_assoc, dropWhile_append_all hws, List.cons_append,
      List.dropWhile_cons_of_neg (by rw [hb0]; simp)]
  unfold firstAsciiToken
  rw [hdrop]
  rw [if_neg (by simp)]
  congr 1
  have htw : ((b0 :: tok') ++ rest).takeWhile (fun b => ! isAsciiWs b) =
      (b0 :: tok') ++ rest.takeWhile (fun b => ! isAsciiWs b) := by
    refine takeWhile_append_all ?_ rest
    intro x hx
    rw [htokns x hx]
    rfl
  rw [htw]
  rcases hrest with rfl | ⟨b, rest2, rfl, hbws⟩
  · simp
  · rw [List.takeWhile_cons_of_neg (by rw [hbws]; simp)]
    simp

theorem insertAssoc_fresh {m : Dict} {k : Bytes} (v : Bytes)
    (h : ∀ e ∈ m, e.1 ≠ k) : insertAssoc m k v = m ++ [(k, v)] := by
  unfold insertAssoc
  congr 1
  refine List.filter_eq_self.mpr ?_
  intro e he
  simpa using h e he

theorem foldl_insert_swap_fresh :
    ∀ (d : List (Bytes × Bytes)) (acc : Dict),
      (∀ kv ∈ d, ∀ e ∈ acc, e.1 ≠ kv.2) →
      (d.map (fun kv => kv.2)).Nodup →
      d.foldl (fun m kv => insertAssoc m kv.2 kv.1) acc =
        acc ++ d.map (fun kv => (kv.2, kv.1)) := by
  intro d
  induction d with
  | nil =>
    intro acc _ _
    simp
  | cons kv d' ih =>
    intro acc hfresh hnd
    rw [List.foldl_cons]
    rw [insertAssoc_fresh kv.1 (fun e he => hfresh kv (List.mem_cons_self kv d') e he)]
    rw [List.map_cons, List.nodup_cons] at hnd
    have hfresh' : ∀ kv' ∈ d', ∀ e ∈ acc ++ [(kv.2, kv.1)], e.1 ≠ kv'.2 := by
      intro kv' hkv' e he
      rcases List.mem_append.mp he with he' | he'
      · exact hfresh kv' (List.mem_cons_of_mem kv hkv') e he'
      · have he2 : e = (kv.2, kv.1) := by simpa using he'
        rw [he2]
        intro hc
        have hc2 : kv.2 = kv'.2 := hc
        refine hnd.1 ?_
        rw [hc2]
        exact List.mem_map_of_mem _ hkv'
    rw [ih (acc ++ [(kv.2, kv.1)]) hfresh' hnd.2]
    simp

theorem reverse_dict_eq_map {d : Dict}
    (hv : (d.map (fun kv => kv.2)).Nodup) :
    reverse_dict d = d.map (fun kv => (kv.2, kv.1)) := by
  unfold reverse_dict
  rw [foldl_insert_swap_fresh d [] (by simp) hv]
  rfl

theorem lookupAssoc_eq_some_of_mem_nodup :
    ∀ {m : Dict}, (m.map (fun kv => kv.1)).Nodup →
      ∀ {k v : Bytes}, (k, v) ∈ m → lookupAssoc m k = some v := by
  intro m
  induction m with
  | nil =>
    intro _ k v hmem
    simp at hmem
  | cons e m' ih =>
    intro hnd k v hmem
    rw [List.map_cons, List.nodup_cons] at hnd
    rw [lookupAssoc_cons]
    rcases List.mem_cons.mp hmem with rfl | hmem'
    · rw [if_pos rfl]
    · rcases eq_or_ne e.1 k with he | he
      · exfalso
        refine hnd.1 ?_
        rw [he]
        exact List.mem_map.mpr ⟨(k, v), hmem', rfl⟩
      · rw [if_neg he]
        exact ih hnd.2 hmem'

theorem foldl_append_eq {α β : Type} (f : β → List α) :
    ∀ (l : List β) (acc : List α),
      l.foldl (fun a b => a ++ f b) acc = acc ++ (l.map f).flatten := by
  intro l
  induction l with
  | nil =>
    intro acc
    simp
  | cons b l ih =>
    intro acc
    rw [List.foldl_cons, ih, List.map_cons, List.flatten_cons, List.append_assoc]

theorem allConversionKeys_fold (dicts : String → Dict) :
    ∀ (defs : List (DictionaryKeys × List String)) (acc : List Bytes),
      defs.foldl (fun acc d =>
        d.2.foldl (fun a n =>
          a ++ ((dicts n).map (fun kv => kv.1)).filter
            (fun k => decide (3 < k.length))) acc) acc
      = acc ++ (defs.map (fun d => (d.2.map (fun n =>
          ((dicts n).map (fun kv => kv.1)).filter
            (fun k => decide (3 < k.length)))).flatten)).flatten := by
  intro defs
  induction defs with
  | nil =>
    intro acc
    simp
  | cons d defs ih =>
    intro acc
    rw [List.foldl_cons, ih, foldl_append_eq, List.map_cons, List.flatten_cons,
      List.append_assoc]

theorem allConversionKeys_eq (dicts : String → Dict)
    (defs : List (DictionaryKeys × List String)) :
    allConversionKeys dicts defs =
      (defs.map (fun d => (d.2.map (fun n =>
        ((dicts n).map (fun kv => kv.1)).filter
          (fun k => decide (3 < k.length)))).flatten)).flatten := by
  unfold allConversionKeys
  rw [allConversionKeys_fold]
  rw [List.nil_append]

theorem mem_allConversionKeys {dicts : String → Dict}
    {defs : List (DictionaryKeys × List String)} {k : Bytes} :
    k ∈ allConversionKeys dicts defs ↔
      ∃ d ∈ defs, ∃ n ∈ d.2, (∃ v, (k, v) ∈ dicts n) ∧ 3 < k.length := by
  rw [allConversionKeys_eq]
  rw [List.mem_flatten]
  constructor
  · rintro ⟨block, hblock, hk⟩
    obtain ⟨d, hd, rfl⟩ := List.mem_map.mp hblock
    rw [List.mem_flatten] at hk
    obtain ⟨inner, hinner, hk2⟩ := hk
    obtain ⟨n, hn, rfl⟩ := List.mem_map.mp hinner
    rw [List.mem_filter] at hk2
    obtain ⟨hkn, hklen⟩ := hk2
    obtain ⟨kv, hkv, hkv1⟩ := List.mem_map.mp hkn
    refine ⟨d, hd, n, hn, ⟨kv.2, ?_⟩, by simpa using hklen⟩
    have : kv = (k, kv.2) := by
      cases kv
      simp_all
    rw [← this]
    exact hkv
  · rintro ⟨d, hd, n, hn, ⟨v, hv⟩, hlen⟩
    refine ⟨_, List.mem_map_of_mem _ hd, ?_⟩
    rw [List.mem_flatten]
    refine ⟨_, List.mem_map_of_mem _ hn, ?_⟩
    rw [List.mem_filter]
    exact ⟨List.mem_map.mpr ⟨(k, v), hv, rfl⟩, by simpa using hlen⟩

/-- C1: for every dictionary and every token, one pass of the rewrite
proceeds left to right over the token's UTF-8 bytes: at each offset it
selects, among all stored keys that are a prefix of the remaining suffix,
the single longest one, emits that key's mapped value and advances by the
matched key's byte length; if no stored key is a prefix it emits the next
codepoint unchanged and advances by that codepoint's byte length; the
pass output is the concatenation of the emitted pieces.  Stated as: the
`parts` the loop emits form a `MaximalMunch` decomposition of the token.
Hypotheses reflect the source's types and the trie: the token is a `&str`
(valid UTF-8), the trie keys are `String`s (valid UTF-8), and no key is
empty (the trie search yields matches only at depth ≥ 1, and the claim's
own procedure could not advance past an empty match). -/
theorem claim_C1_maximal_munch (dict : Dict) (cs : List Nat)
    (hcs : ∀ c ∈ cs, ValidChar c)
    (hkeys : ∀ kv ∈ dict, ValidUtf8 kv.1) (hne : ∀ kv ∈ dict, kv.1 ≠ []) :
    MaximalMunch dict (utf8Encode cs) (passParts dict (utf8Encode cs)) :=
  maximalMunch_passParts_bounded dict hkeys hne (utf8Encode cs).length cs hcs
    (Nat.le_refl _)

theorem claim_C1_witness :
    MaximalMunch [([97, 98], [120])] (utf8Encode [97, 98, 99])
      (passParts [([97, 98], [120])] (utf8Encode [97, 98, 99])) := by
  refine claim_C1_maximal_munch [([97, 98], [120])] [97, 98, 99] (by decide) ?_ ?_
  · intro kv hkv
    have hkv2 : kv = ([97, 98], [120]) := by simpa using hkv
    rw [hkv2]
    exact ⟨[97, 98], by decide, by decide⟩
  · intro kv hkv
    have hkv2 : kv = ([97, 98], [120]) := by simpa using hkv
    rw [hkv2]
    simp

/-- C2: for every dictionary and every input token the rewrite pass is
total and terminating and consumes every input byte exactly once.
Conjuncts: `convert_word` always returns `Ok`; any iteration bound of at
least the word's byte length gives the same result, so the loop exits by
its guard (termination); the consumed blocks concatenate to the whole
word (no byte lost, none consumed twice); every iteration consumes a
non-empty block; there is exactly one emission per consumed block; and
each consumed block is a dictionary match or a single copied codepoint. -/
theorem claim_C2_total (dict : Dict) (cs : List Nat)
    (hcs : ∀ c ∈ cs, ValidChar c) (hkeys : ∀ kv ∈ dict, ValidUtf8 kv.1) :
    (∀ (D : DictionaryKeys → Dict) (keys : List DictionaryKeys) (input : Bytes),
      (convert_word D keys input).isOk = true)
    ∧ (∀ f, (utf8Encode cs).length ≤ f →
        convertLoop dict f (utf8Encode cs) = passParts dict (utf8Encode cs))
    ∧ (passSegs dict (utf8Encode cs)).flatten = utf8Encode cs
    ∧ (∀ seg ∈ passSegs dict (utf8Encode cs), seg ≠ [])
    ∧ (passParts dict (utf8Encode cs)).length = (passSegs dict (utf8Encode cs)).length
    ∧ (∀ seg ∈ passSegs dict (utf8Encode cs),
        (∃ v, (seg, v) ∈ dict) ∨ ∃ c, ValidChar c ∧ seg = utf8EncodeChar c) := by
  obtain ⟨hclass, _, _⟩ :=
    pass_valid_main dict hkeys (utf8Encode cs).length cs hcs (Nat.le_refl _)
  refine ⟨fun D keys input => rfl, ?_, passSegs_flatten dict _,
    passSegs_ne_nil dict _, passParts_length_eq dict _, ?_⟩
  · intro f hf
    exact convertLoop_fuel dict f (utf8Encode cs) f hf hf
  · intro seg hseg
    rcases hclass seg hseg with ⟨v, hv⟩ | hc
    · exact Or.inl ⟨v, lookupAssoc_mem hv⟩
    · exact Or.inr hc

theorem claim_C2_witness :
    (∀ (D : DictionaryKeys → Dict) (keys : List DictionaryKeys) (input : Bytes),
      (convert_word D keys input).isOk = true)
    ∧ (∀ f, (utf8Encode [97, 98, 99]).length ≤ f →
        convertLoop [([97, 98], [120])] f (utf8Encode [97, 98, 99]) =
          passParts [([97, 98], [120])] (utf8Encode [97, 98, 99]))
    ∧ (passSegs [([97, 98], [120])] (utf8Encode [97, 98, 99])).flatten =
        utf8Encode [97, 98, 99]
    ∧ (∀ seg ∈ passSegs [([97, 98], [120])] (utf8Encode [97, 98, 99]), seg ≠ [])
    ∧ (passParts [([97, 98], [120])] (utf8Encode [97, 98, 99])).length =
        (passSegs [([97, 98], [120])] (utf8Encode [97, 98, 99])).length
    ∧ (∀ seg ∈ passSegs [([97, 98], [120])] (utf8Encode [97, 98, 99]),
        (∃ v, (seg, v) ∈ [([97, 98], [120])]) ∨
          ∃ c, ValidChar c ∧ seg = utf8EncodeChar c) := by
  refine claim_C2_total [([97, 98], [120])] [97, 98, 99] (by decide) ?_
  intro kv hkv
  have hkv2 : kv = ([97, 98], [120]) := by simpa using hkv
  rw [hkv2]
  exact ⟨[97, 98], by decide, by decide⟩

/-- C3: for every (source, destination) pair and every token, conversion
applies exactly two passes in order — first the source variant's
to-standard dictionary (`CONFIGS_TO_STANDARD`), then the destination
variant's from-standard dictionary (`CONFIGS_FROM_STANDARD`) — including
when source equals destination (the statement is universal over both
scripts, so `src = dst` is an instance). -/
theorem claim_C3_two_passes (D : DictionaryKeys → Dict)
    (cut : Bytes → List Bytes) (src dst : Script) (input : Bytes) :
    convert D cut src dst input = .ok ((cut input).map (fun w =>
      (passParts (D (CONFIGS_FROM_STANDARD dst))
        ((passParts (D (CONFIGS_TO_STANDARD src)) w).flatten)).flatten)) :=
  convert_eq_map_helper D cut src dst input

/-- A dictionary containing the claimed entries "AB" → "X" (bytes
`[65, 66] → [88]`), "A" → "Y" (`[65] → [89]`) and additionally a longer
key "ABC" → "Z" (`[65, 66, 67] → [90]`). -/
def dictC4 : Dict := [([65, 66], [88]), ([65], [89]), ([65, 66, 67], [90])]

/-- C4 counterexample: a dictionary containing both "AB" → "X" and
"A" → "Y" may also contain a longer key, here "ABC" → "Z".  On the token
"ABC", which begins with "AB", the pass emits "Z" — the longest match —
not "X", so "emits X for the leading AB" is false as stated for every
such dictionary. -/
theorem claim_C4_counterexample :
    (passParts dictC4 [65, 66, 67]).head? = some [90] ∧
      some [90] ≠ some ([88] : Bytes) := by
  constructor
  · decide
  · decide

/-- C4 amended: for every dictionary with unique keys containing both
"AB" → "X" and "A" → "Y", and every token beginning with "AB", the pass
matches at the leading position a stored key of byte length at least 2 —
never the entry "A" → "Y" followed by copy-through of "B" — and it emits
"X" exactly when no strictly longer stored key matches there. -/
theorem claim_C4_longest_match (dict : Dict)
    (hnd : (dict.map (fun kv => kv.1)).Nodup)
    (hAB : ([65, 66], [88]) ∈ dict) (_hA : ([65], [89]) ∈ dict)
    (rest : Bytes) :
    ∃ m v, (commonPrefixSearch dict ([65, 66] ++ rest)).getLast? = some (m, v) ∧
      (m, v) ∈ dict ∧ 2 ≤ m.length ∧
      passParts dict ([65, 66] ++ rest) =
        v :: passParts dict (([65, 66] ++ rest).drop m.length) ∧
      ((∀ k' v', (k', v') ∈ dict → (∃ t, k' ++ t = [65, 66] ++ rest) →
          k'.length ≤ 2) → m = [65, 66] ∧ v = [88]) := by
  have hlkAB : lookupAssoc dict [65, 66] = some [88] :=
    lookupAssoc_eq_some_of_mem_nodup hnd hAB
  have hmemAB : ([65, 66], [88]) ∈ commonPrefixSearch dict ([65, 66] ++ rest) :=
    commonPrefixSearch_of_lookup (by simp) hlkAB ⟨rest, rfl⟩
  have hne : commonPrefixSearch dict ([65, 66] ++ rest) ≠ [] := by
    intro hnil
    rw [hnil] at hmemAB
    simp at hmemAB
  have hsome : (commonPrefixSearch dict ([65, 66] ++ rest)).getLast?.isSome := by
    rw [List.getLast?_isSome]
    exact hne
  obtain ⟨mv, hmv⟩ := Option.isSome_iff_exists.mp hsome
  obtain ⟨m, v⟩ := mv
  have hspec := commonPrefixSearch_getLast_spec hmv
  obtain ⟨hm1, hm2, hm3⟩ := commonPrefixSearch_key_length hspec.1
  obtain ⟨_, _, _, _, hlkm⟩ := mem_commonPrefixSearch.mp hspec.1
  have hwne : ([65, 66] ++ rest : Bytes) ≠ [] := by simp
  refine ⟨m, v, hmv, lookupAssoc_mem hlkm, ?_, passParts_step_match hwne hmv, ?_⟩
  · have := hspec.2 [65, 66] [88] hmemAB
    simpa using this
  · intro hshort
    have hup : m.length ≤ 2 := by
      have hmemd := lookupAssoc_mem hlkm
      have hpre : ∃ t, m ++ t = [65, 66] ++ rest := by
        refine ⟨([65, 66] ++ rest).drop m.length, ?_⟩
        nth_rewrite 1 [hm3]
        exact List.take_append_drop m.length ([65, 66] ++ rest)
      exact hshort m v hmemd hpre
    have hlow : 2 ≤ m.length := by
      have := hspec.2 [65, 66] [88] hmemAB
      simpa using this
    have hlen2 : m.length = 2 := by omega
    have hm66 : m = [65, 66] := by
      rw [hm3, hlen2]
      have h2 : ([65, 66] : Bytes).length = 2 := rfl
      rw [← h2, List.take_left]
    refine ⟨hm66, ?_⟩
    rw [hm66] at hlkm
    rw [hlkAB] at hlkm
    injection hlkm with hv
    exact hv.symm

theorem claim_C4_longest_match_witness :
    ∃ m v, (commonPrefixSearch [([65, 66], [88]), ([65], [89])]
        ([65, 66] ++ [67])).getLast? = some (m, v) ∧
      (m, v) ∈ [([65, 66], [88]), ([65], [89])] ∧ 2 ≤ m.length ∧
      passParts [([65, 66], [88]), ([65], [89])] ([65, 66] ++ [67]) =
        v :: passParts [([65, 66], [88]), ([65], [89])]
          (([65, 66] ++ [67]).drop m.length) ∧
      ((∀ k' v', (k', v') ∈ [([65, 66], [88]), ([65], [89])] →
          (∃ t, k' ++ t = [65, 66] ++ [67]) → k'.length ≤ 2) →
        m = [65, 66] ∧ v = [88]) :=
  claim_C4_longest_match [([65, 66], [88]), ([65], [89])] (by decide)
    (by decide) (by decide) [67]

/-- A table assignment exercising the ConversionKeySet aggregation: the
table `STCharacters` (a constituent of the `FromChina` pass) holds one
entry whose key 他们 is two characters (six UTF-8 bytes) long. -/
def dictsC5 : String → Dict := fun n =>
  if n = "STCharacters" then
    [(utf8Encode [0x4ED6, 0x4EEC], utf8Encode [0x4ED6])]
  else []

/-- C5 counterexample: the key 他们 has 2 characters — not more than 3 —
but 6 UTF-8 bytes, and the source filters on `k.len() > 3`, the byte
length.  The byte filter puts it into the ConversionKeySet, so the set
does not contain exactly the keys longer than 3 characters. -/
theorem claim_C5_counterexample :
    utf8Encode [0x4ED6, 0x4EEC] ∈ allConversionKeys dictsC5 dict_definitions ∧
      ([0x4ED6, 0x4EEC] : List Nat).length ≤ 3 := by
  constructor
  · decide
  · decide

/-- C5 amended: the ConversionKeySet produced by compilation contains
exactly those mapping-table keys, aggregated across every table used by
any pass of `dict_definitions`, whose UTF-8 byte length exceeds 3
(the source's `k.len() > 3` counts bytes, not characters). -/
theorem claim_C5_keyset (dicts : String → Dict) (k : Bytes) :
    k ∈ allConversionKeys dicts dict_definitions ↔
      ∃ d ∈ dict_definitions, ∃ n ∈ d.2,
        (∃ v, (k, v) ∈ dicts n) ∧ 3 < k.length :=
  mem_allConversionKeys

theorem claim_C5_keyset_witness :
    utf8Encode [0x4ED6, 0x4EEC] ∈ allConversionKeys dictsC5 dict_definitions :=
  (claim_C5_keyset dictsC5 (utf8Encode [0x4ED6, 0x4EEC])).mpr
    ⟨(.FromChina, ["STCharacters", "STPhrases"]), by decide, "STCharacters",
      by decide, ⟨utf8Encode [0x4ED6], by decide⟩, by decide⟩

/-- C6: when parsing a mapping-table file, the key on each line is the
text before the first tab, the value is the first whitespace-delimited
token after that tab, a line without a tab makes parsing fail, and when
two lines share a key the last-parsed entry wins.  Conjuncts: a tab-free
line forces the source's "could not split line" error; on success, the
binding of every key is the last parsed entry for that key; the split
really is at the first tab; and `split_ascii_whitespace().next()` really
returns the first whitespace-delimited token. -/
theorem claim_C6_read_dict (lines : List Bytes) :
    ((∃ l ∈ lines, ∀ b ∈ l, b ≠ 9) →
      read_dict lines = .error "could not split line")
    ∧ ((∀ l ∈ lines, ∃ b ∈ l, b = 9) →
        ∀ k : Bytes, ∀ m : Dict, read_dict lines = .ok m →
          lookupAssoc m k =
            match ((lines.filterMap parseLine).filter
                (fun e => decide (e.1 = k))).getLast? with
            | some e => some e.2
            | none => none)
    ∧ (∀ pre post : Bytes, (∀ b ∈ pre, b ≠ 9) →
        splitOnceByte 9 (pre ++ 9 :: post) = some (pre, post))
    ∧ (∀ ws tok rest : Bytes, (∀ b ∈ ws, isAsciiWs b = true) → tok ≠ [] →
        (∀ b ∈ tok, isAsciiWs b = false) →
        (rest = [] ∨ ∃ b rest2, rest = b :: rest2 ∧ isAsciiWs b = true) →
        firstAsciiToken (ws ++ tok ++ rest) = some tok) := by
  refine ⟨?_, ?_, ?_, ?_⟩
  · intro h
    exact read_dict_go_error [] h
  · intro h k m hm
    unfold read_dict at hm
    rw [read_dict_go_ok [] h] at hm
    injection hm with hm2
    rw [← hm2, lookupAssoc_foldl_insert]
    cases ((lines.filterMap parseLine).filter
        (fun e => decide (e.1 = k))).getLast? with
    | some e => rfl
    | none => rfl
  · intro pre post hpre
    exact splitOnceByte_first hpre post
  · intro ws tok rest hws htok htokns hrest
    exact firstAsciiToken_spec ws tok rest hws htok htokns hrest

theorem claim_C6_witness :
    read_dict [[97, 9, 98, 32, 99], [97, 9, 100]] = .ok [([97], [100])] ∧
      lookupAssoc [([97], [100])] [97] = some [100] := by
  refine ⟨rfl, ?_⟩
  have h := (claim_C6_read_dict [[97, 9, 98, 32, 99], [97, 9, 100]]).2.1
    (by decide) [97] [([97], [100])] rfl
  rw [h]
  decide

/-- C7: the Standard variant's two passes (`FromStandard`, `ToStandard`)
are assembled from empty table lists, so both are empty dictionaries and
every pass step is a copy-through; therefore `convert(ST, ST, text)`
returns the tokens unchanged and their concatenation is `text` whenever
the segmenter covers the input (its contract).  With empty dictionaries
no substring is dictionary-matchable, so this covers every text. -/
theorem claim_C7_standard_identity (tables : String → Dict)
    (D : DictionaryKeys → Dict)
    (hD : ∀ k, D k = buildPass tables (dictDefTables k))
    (cut : Bytes → List Bytes) (text : Bytes)
    (hcover : (cut text).flatten = text) :
    convert D cut Script.ST Script.ST text = .ok (cut text) ∧
      ∃ ys, convert D cut Script.ST Script.ST text = .ok ys ∧
        ys.flatten = text := by
  have hFrom : D DictionaryKeys.FromStandard = [] := by
    rw [hD]
    rfl
  have hTo : D DictionaryKeys.ToStandard = [] := by
    rw [hD]
    rfl
  have hmain : convert D cut Script.ST Script.ST text = .ok (cut text) := by
    rw [convert_eq_map_helper]
    congr 1
    have hid : ∀ w, (passParts (D (CONFIGS_FROM_STANDARD Script.ST))
        ((passParts (D (CONFIGS_TO_STANDARD Script.ST)) w).flatten)).flatten = w := by
      intro w
      show (passParts (D DictionaryKeys.ToStandard)
        ((passParts (D DictionaryKeys.FromStandard) w).flatten)).flatten = w
      rw [hFrom, hTo, passParts_nil_dict_flatten, passParts_nil_dict_flatten]
    calc (cut text).map (fun w => (passParts (D (CONFIGS_FROM_STANDARD Script.ST))
          ((passParts (D (CONFIGS_TO_STANDARD Script.ST)) w).flatten)).flatten)
        = (cut text).map (fun w => w) := List.map_congr_left (fun w _ => hid w)
      _ = cut text := List.map_id _
  exact ⟨hmain, cut text, hmain, hcover⟩

theorem claim_C7_witness :
    convert (fun k => buildPass (fun _ => []) (dictDefTables k))
        (fun w => [w]) Script.ST Script.ST [1, 2, 3] = .ok [[1, 2, 3]] ∧
      ∃ ys, convert (fun k => buildPass (fun _ => []) (dictDefTables k))
          (fun w => [w]) Script.ST Script.ST [1, 2, 3] = .ok ys ∧
        ys.flatten = [1, 2, 3] :=
  claim_C7_standard_identity (fun _ => [])
    (fun k => buildPass (fun _ => []) (dictDefTables k)) (fun _ => rfl)
    (fun w => [w]) [1, 2, 3] (by decide)

/-- C8: reversing a mapping table swaps each key/value pair: when the
forward table's values are pairwise distinct (and its keys are unique, a
`HashMap` invariant), the reversed table maps `v` to `k` exactly when the
forward table maps `k` to `v`.  The collided case the claim leaves
unspecified is outside this statement. -/
theorem claim_C8_reverse (d : Dict)
    (hk : (d.map (fun kv => kv.1)).Nodup)
    (hv : (d.map (fun kv => kv.2)).Nodup) (v k : Bytes) :
    lookupAssoc (reverse_dict d) v = some k ↔ lookupAssoc d k = some v := by
  rw [reverse_dict_eq_map hv]
  constructor
  · intro h
    have hmem := lookupAssoc_mem h
    obtain ⟨kv, hkv, heq⟩ := List.mem_map.mp hmem
    have hkv2 : kv = (k, v) := by
      cases kv
      injection heq with h1 h2
      simp_all
    rw [hkv2] at hkv
    exact lookupAssoc_eq_some_of_mem_nodup hk hkv
  · intro h
    have hmem := lookupAssoc_mem h
    have hmem2 : (v, k) ∈ d.map (fun kv => (kv.2, kv.1)) :=
      List.mem_map.mpr ⟨(k, v), hmem, rfl⟩
    refine lookupAssoc_eq_some_of_mem_nodup ?_ hmem2
    have hms : (d.map (fun kv => (kv.2, kv.1))).map (fun kv => kv.1) =
        d.map (fun kv => kv.2) := by
      rw [List.map_map]
      rfl
    rw [hms]
    exact hv

theorem claim_C8_witness :
    (lookupAssoc (reverse_dict [([1], [2]), ([3], [4])]) [2] = some [1] ↔
      lookupAssoc [([1], [2]), ([3], [4])] [1] = some [2]) :=
  claim_C8_reverse [([1], [2]), ([3], [4])] (by decide) (by decide) [2] [1]

/-- C9: `convert` always returns `Ok` — it never fails because of the
input text, only dictionary initialization could fail upstream — and the
returned sequence has one converted string per segmented token: its
length is the token count and its i-th element is exactly the
`convert_word` result for the i-th token, so the concatenation of the
sequence is the full output. -/
theorem claim_C9_convert_ok (D : DictionaryKeys → Dict)
    (cut : Bytes → List Bytes) (src dst : Script) (input : Bytes) :
    ∃ ys : List Bytes, convert D cut src dst input = .ok ys ∧
      ys.length = (cut input).length ∧
      ∀ i : Nat, ∀ w : Bytes, (cut input)[i]? = some w →
        ys[i]? = (convert_word D
          [CONFIGS_TO_STANDARD src, CONFIGS_FROM_STANDARD dst] w).toOption := by
  refine ⟨(cut input).map (fun w =>
    (passParts (D (CONFIGS_FROM_STANDARD dst))
      ((passParts (D (CONFIGS_TO_STANDARD src)) w).flatten)).flatten),
    convert_eq_map_helper D cut src dst input, List.length_map _ _, ?_⟩
  intro i w hw
  rw [List.getElem?_map, hw]
  rfl

theorem claim_C9_witness :
    ∃ ys : List Bytes,
      convert (fun _ => []) (fun w => [w]) Script.CN Script.CN [97] = .ok ys ∧
      ys.length = ((fun w => [w]) ([97] : Bytes)).length ∧
      ∀ i : Nat, ∀ w : Bytes, ((fun w => [w]) ([97] : Bytes))[i]? = some w →
        ys[i]? = (convert_word (fun _ => [])
          [CONFIGS_TO_STANDARD Script.CN, CONFIGS_FROM_STANDARD Script.CN] w).toOption :=
  claim_C9_convert_ok (fun _ => []) (fun w => [w]) Script.CN Script.CN [97]

/-- C10: in the per-token rewrite every byte offset at which the input is
sliced lies on a UTF-8 character boundary, and the inner fallback branch
that copies the entire remaining suffix is unreachable.  The offsets the
loop visits are the cumulative lengths of the consumed blocks, so the
first conjunct states that every prefix of the consumed blocks
concatenates to the encoding of a whole-codepoint prefix of the token
(hence each slicing offset is a character boundary and slicing cannot
panic); the second states the fallback branch is never taken.
Hypotheses: the token is a `&str` and the keys are `String`s. -/
theorem claim_C10_char_boundaries (dict : Dict) (cs : List Nat)
    (hcs : ∀ c ∈ cs, ValidChar c) (hkeys : ∀ kv ∈ dict, ValidUtf8 kv.1) :
    (∀ i : Nat, ∃ j : Nat,
        ((passSegs dict (utf8Encode cs)).take i).flatten = utf8Encode (cs.take j))
    ∧ passFallbackHit dict (utf8Encode cs) = false := by
  obtain ⟨_, hfb, hbound⟩ :=
    pass_valid_main dict hkeys (utf8Encode cs).length cs hcs (Nat.le_refl _)
  exact ⟨hbound, hfb⟩

theorem claim_C10_witness :
    (∀ i : Nat, ∃ j : Nat,
        ((passSegs [([97, 98], [120])] (utf8Encode [97, 98, 99])).take i).flatten =
          utf8Encode ([97, 98, 99].take j))
    ∧ passFallbackHit [([97, 98], [120])] (utf8Encode [97, 98, 99]) = false := by
  refine claim_C10_char_boundaries [([97, 98], [120])] [97, 98, 99] (by decide) ?_
  intro kv hkv
  have hkv2 : kv = ([97, 98], [120]) := by simpa using hkv
  rw [hkv2]
  exact ⟨[97, 98], by decide, by decide⟩

end Ztarcc
